import Mathlib

/-!
# Verification of `fairpy/indivisible/allocations.py`

Shallow embedding of the fractional-allocation validation and valuation engine.

Modelling conventions:
* A Python `dict` is an association list in insertion order (`List (String × ℚ)`);
  the code only ever iterates `.values()` positionally, never looks keys up.
* Python numbers are rationals (`ℚ`).
* A Python runtime fault (IndexError on `maps[0]`, TypeError from iterating
  `None`) is `Option.none`; a normal return is `some`.
* The printed diagnostic messages are represented by the `Diagnostic` tags;
  `check_input` returns `some none` for `True` (no message) and
  `some (some d)` for `False` with message `d`.
-/

/-- The three diagnostic messages `check_input` can print before returning
`False`. -/
inductive Diagnostic where
  | OutOfRangeShare
  | OverAllocatedItem
  | UnclaimedItem
deriving DecidableEq

/-- A fraction map: one agent item-to-share dict, in insertion order. -/
abbrev FracMap := List (String × ℚ)

/-- The `.values()` view of a dict. -/
def dictValues (m : FracMap) : List ℚ := m.map Prod.snd

/-- An `AdditiveAgent`: its raw item-to-value dataset `map_good_to_value` and a
display name. -/
structure AdditiveAgent where
  map_good_to_value : List (String × ℚ)
  name : String

/-- The second phase of `check_input`: `for k in range(len(sum_value_list))`,
report over-allocation (`sum > 1`) at each position before unclaimed
(`sum == 0`), positions in ascending order, stopping at the first violation. -/
def checkSums : List ℚ → Option Diagnostic
  | [] => none
  | s :: rest =>
    if 1 < s then some Diagnostic.OverAllocatedItem
    else if s = 0 then some Diagnostic.UnclaimedItem
    else checkSums rest

/-- The body of `check_input` acting on the value rows that are actually
visited: each agent values list already truncated to the length `n` of the
first map (the first row therefore has length exactly `n`).  Within the
Python loop the running sums are updated before the range test, but on the
early `return False` those partial sums are discarded, so the range scan and
the column sums are independent and appear here as two passes with the same
observable result. -/
def check_rows (rows : List (List ℚ)) : Option Diagnostic :=
  let n := (rows.headD []).length
  if rows.any (fun row => row.any (fun v => decide (1 < v) || decide (v < 0))) then
    some Diagnostic.OutOfRangeShare
  else
    checkSums ((List.range n).map (fun j => (rows.map (fun row => row.getD j 0)).sum))

/-- Embeds `check_input(map_item_to_fraction)`.

`sum_value_list = [0] * len(map_item_to_fraction[0])` raises IndexError on an
empty list, hence the `none` in the first branch.  The loop pairs each agent
values with `range(len(sum_value_list))` via `zip`, so only the first
`n = len(maps[0])` values of each map are visited (`take n`). -/
def check_input (maps : List FracMap) : Option (Option Diagnostic) :=
  match maps with
  | [] => none
  | m0 :: _ => some (check_rows (maps.map (fun m => (dictValues m).take m0.length)))

/-- The separator used by `",".join`. -/
def commaSep : String := ","

/-- Embeds `stringify_bundle(bundle)`: `"{" + ",".join(sorted(bundle)) + "}"`.
The input set is modelled as a list of its elements in some iteration order. -/
def stringify_bundle (bundle : List String) : String :=
  "\x7b" ++ String.intercalate commaSep (List.insertionSort (fun a b => a ≤ b) bundle) ++ "\x7d"

/-- Embeds `get_items_of_agent_in_alloc`: the keys whose share is `> 0`, in
dict order. -/
def get_items_of_agent_in_alloc (map_item_to_fraction : FracMap) : List String :=
  (map_item_to_fraction.filter (fun kv => decide (0 < kv.2))).map Prod.fst

/-- Embeds `get_value_of_agent_in_alloc`: `value += v1*v2` over
`zip(value_of_the_whole_items.values(), amount_of_the_items.values())`. -/
def get_value_of_agent_in_alloc (value_of_the_whole_items : List (String × ℚ))
    (amount_of_the_items : FracMap) : ℚ :=
  (List.zip (dictValues value_of_the_whole_items) (dictValues amount_of_the_items)).foldl
    (fun value p => value + p.1 * p.2) 0

/-- The state of a `FractionalAllocation` object after `__init__` returned:
each field is either set or the `None` sentinel. -/
structure FractionalAllocation where
  agents : Option (List AdditiveAgent)
  map_item_to_fraction : Option (List FracMap)

/-- Embeds `FractionalAllocation.__init__`.  Outer `none` means the
constructor itself raised (the IndexError escaping from `check_input`). -/
def FractionalAllocation.init (agents : List AdditiveAgent)
    (map_item_to_fraction : List FracMap) : Option FractionalAllocation :=
  if agents.length ≠ map_item_to_fraction.length then
    some ⟨none, none⟩
  else
    match check_input map_item_to_fraction with
    | none => none
    | some none => some ⟨some agents, some map_item_to_fraction⟩
    | some (some _) => some ⟨none, none⟩

/-- Embeds `value_of_fractional_allocation`.  It iterates `self.agents`
(TypeError if that is `None` — there is no validity check) and subscripts
`self.map_item_to_fraction[i_agent]` (IndexError if too short, TypeError on
`None` unless the loop is vacuous). -/
def FractionalAllocation.value_of_fractional_allocation (A : FractionalAllocation) :
    Option ℚ :=
  match A.agents with
  | none => none
  | some ags =>
    match A.map_item_to_fraction with
    | none => if ags.isEmpty then some 0 else none
    | some maps =>
      if ags.length ≤ maps.length then
        some (((ags.zip maps).map
          (fun p => get_value_of_agent_in_alloc p.1.map_good_to_value p.2)).foldl
            (fun result v => result + v) 0)
      else none

/-- The apostrophe character, kept out of string literals. -/
def apos : String := String.singleton (Char.ofNat 39)

/-- One line of the `__repr__` output for one agent. -/
def reprLine (ag : AdditiveAgent) (m : FracMap) : String :=
  ag.name ++ apos ++ "s bundle: " ++ stringify_bundle (get_items_of_agent_in_alloc m)
    ++ ",  value: " ++ toString (get_value_of_agent_in_alloc ag.map_good_to_value m)
    ++ "\n"

/-- Embeds `FractionalAllocation.__repr__`: the sentinel state (both fields
`None`) renders as the empty string; otherwise one line per agent.  (Numeric
formatting of the value differs from CPython float printing; no claim depends
on it.) -/
def FractionalAllocation.repr (A : FractionalAllocation) : Option String :=
  match A.agents, A.map_item_to_fraction with
  | none, none => some ""
  | none, some _ => none
  | some ags, none => if ags.isEmpty then some "" else none
  | some ags, some maps =>
    if ags.length ≤ maps.length then
      some (String.join ((ags.zip maps).map (fun p => reprLine p.1 p.2)))
    else none

/-- Per-item column sum of the shares, positionally: how much of item position
`j` has been given out across all agents. -/
def itemSum (maps : List FracMap) (j : ℕ) : ℚ :=
  (maps.map (fun m => (dictValues m).getD j 0)).sum

/-- Specification-side fractional value: the sum of `value * share` over the
two value lists paired positionally, truncated to the shorter one. -/
def fractionalValueSpec (vals shares : List ℚ) : ℚ :=
  (List.zipWith (fun v s => v * s) vals shares).sum

/-- Contribution of item position `j` to the social value, positionally. -/
def itemContribution (agents : List AdditiveAgent) (maps : List FracMap) (j : ℕ) : ℚ :=
  ((agents.zip maps).map
    (fun p => (dictValues p.1.map_good_to_value).getD j 0 * (dictValues p.2).getD j 0)).sum

/-- Multiply the share at dict position `j` by `c`, keeping the key. -/
def scaleShare (c : ℚ) : ℕ → FracMap → FracMap
  | _, [] => []
  | 0, kv :: rest => (kv.1, c * kv.2) :: rest
  | j + 1, kv :: rest => kv :: scaleShare c j rest

/-- Multiply the entry at position `j` of a list of rationals by `c`. -/
def scaleEntry (c : ℚ) : ℕ → List ℚ → List ℚ
  | _, [] => []
  | 0, v :: rest => c * v :: rest
  | j + 1, v :: rest => v :: scaleEntry c j rest

/-! ## Helper lemmas -/

theorem foldl_add_map_sum {α : Type} (f : α → ℚ) :
    ∀ (l : List α) (a : ℚ), l.foldl (fun acc x => acc + f x) a = a + (l.map f).sum
  | [], a => by simp
  | x :: xs, a => by
    rw [List.foldl_cons, foldl_add_map_sum f xs (a + f x)]
    simp [add_assoc]

theorem foldl_add_sum : ∀ (l : List ℚ) (a : ℚ), l.foldl (fun x y => x + y) a = a + l.sum
  | [], a => by simp
  | x :: xs, a => by
    rw [List.foldl_cons, foldl_add_sum xs (a + x)]
    simp [add_assoc]

theorem sum_map_add {α : Type} (l : List α) (f g : α → ℚ) :
    (l.map (fun x => f x + g x)).sum = (l.map f).sum + (l.map g).sum := by
  induction l with
  | nil => simp
  | cons x xs ih => simp [ih]; ring

theorem sum_map_mul_const {α : Type} (l : List α) (c : ℚ) (f : α → ℚ) :
    (l.map (fun x => c * f x)).sum = c * (l.map f).sum := by
  induction l with
  | nil => simp
  | cons x xs ih => simp [ih, mul_add]

theorem map_mul_zip : ∀ (l₁ l₂ : List ℚ),
    (l₁.zip l₂).map (fun p => p.1 * p.2) = List.zipWith (fun v s => v * s) l₁ l₂
  | [], _ => by simp
  | _ :: _, [] => by simp
  | a :: l₁, b :: l₂ => by simp [map_mul_zip l₁ l₂]

theorem get_value_eq_spec (value_map : List (String × ℚ)) (fraction_map : FracMap) :
    get_value_of_agent_in_alloc value_map fraction_map
      = fractionalValueSpec (dictValues value_map) (dictValues fraction_map) := by
  rw [get_value_of_agent_in_alloc, fractionalValueSpec,
    foldl_add_map_sum (fun p : ℚ × ℚ => p.1 * p.2), map_mul_zip, zero_add]

theorem checkSums_eq_none : ∀ (l : List ℚ), (∀ s ∈ l, ¬ 1 < s ∧ s ≠ 0) → checkSums l = none
  | [], _ => rfl
  | s :: rest, h => by
    have hs := h s (by simp)
    rw [checkSums, if_neg hs.1, if_neg hs.2]
    exact checkSums_eq_none rest (fun x hx => h x (by simp [hx]))

theorem checkSums_eq_over : ∀ (l : List ℚ) (j : ℕ), j < l.length → 1 < l.getD j 0 →
    (∀ k < j, ¬ 1 < l.getD k 0 ∧ l.getD k 0 ≠ 0) → checkSums l = some Diagnostic.OverAllocatedItem
  | [], j, hj, _, _ => absurd hj (by simp)
  | s :: rest, 0, _, hover, _ => by
    rw [checkSums, if_pos (by simpa using hover)]
  | s :: rest, j + 1, hj, hover, hbefore => by
    have hs := hbefore 0 (Nat.succ_pos j)
    rw [checkSums, if_neg (by simpa using hs.1), if_neg (by simpa using hs.2)]
    exact checkSums_eq_over rest j (by simpa using hj) (by simpa using hover)
      (fun k hk => by simpa using hbefore (k + 1) (Nat.succ_lt_succ hk))

theorem getD_map_range (f : ℕ → ℚ) {n k : ℕ} (h : k < n) :
    ((List.range n).map f).getD k 0 = f k := by
  rw [List.getD_eq_getElem?_getD, List.getElem?_map, List.getElem?_range h]
  rfl

theorem rows_of_uniform (m0 : FracMap) (rest : List FracMap)
    (hlen : ∀ m ∈ m0 :: rest, m.length = m0.length) :
    (m0 :: rest).map (fun m => (dictValues m).take m0.length)
      = (m0 :: rest).map dictValues :=
  List.map_congr_left fun m hm => by
    have h : (dictValues m).length = m0.length := by
      simpa [dictValues] using hlen m hm
    rw [← h, List.take_length]

theorem check_input_of_uniform (m0 : FracMap) (rest : List FracMap)
    (hlen : ∀ m ∈ m0 :: rest, m.length = m0.length) :
    check_input (m0 :: rest) = some (check_rows ((m0 :: rest).map dictValues)) := by
  rw [check_input, rows_of_uniform m0 rest hlen]

theorem headD_rows_length (m0 : FracMap) (rest : List FracMap) :
    ((((m0 :: rest).map dictValues).headD []).length) = m0.length := by
  simp [dictValues]

theorem check_rows_sums (m0 : FracMap) (rest : List FracMap)
    (hrange : ∀ m ∈ m0 :: rest, ∀ kv ∈ m, 0 ≤ kv.2 ∧ kv.2 ≤ 1) :
    check_rows ((m0 :: rest).map dictValues)
      = checkSums ((List.range m0.length).map (fun j => itemSum (m0 :: rest) j)) := by
  rw [check_rows]
  have hany : ((m0 :: rest).map dictValues).any
      (fun row => row.any (fun v => decide (1 < v) || decide (v < 0))) = false := by
    rw [List.any_eq_false]
    intro row hrow
    simp only [List.mem_map] at hrow
    obtain ⟨m, hm, rfl⟩ := hrow
    simp only [List.any_eq_true, not_exists, not_and]
    rintro v hv
    simp only [dictValues, List.mem_map] at hv
    obtain ⟨kv, hkv, rfl⟩ := hv
    have := hrange m hm kv hkv
    simp only [Bool.or_eq_true, decide_eq_true_eq, not_or]
    exact ⟨not_lt.mpr this.2, not_lt.mpr this.1⟩
  rw [hany, if_neg (by simp), headD_rows_length]
  congr 1
  refine List.map_congr_left fun j _ => ?_
  rw [itemSum, List.map_map]
  rfl

theorem dictValues_scaleShare (c : ℚ) : ∀ (j : ℕ) (m : FracMap),
    dictValues (scaleShare c j m) = scaleEntry c j (dictValues m)
  | 0, [] => rfl
  | _ + 1, [] => rfl
  | 0, kv :: rest => rfl
  | j + 1, kv :: rest => by
    show dictValues (kv :: scaleShare c j rest) = scaleEntry c (j + 1) (dictValues (kv :: rest))
    simp only [dictValues, List.map_cons]
    show kv.2 :: dictValues (scaleShare c j rest) = kv.2 :: scaleEntry c j (dictValues rest)
    rw [dictValues_scaleShare c j rest]

theorem scaleEntry_getD_self (c : ℚ) : ∀ (j : ℕ) (s : List ℚ),
    (scaleEntry c j s).getD j 0 = c * s.getD j 0
  | 0, [] => by simp [scaleEntry]
  | _ + 1, [] => by simp [scaleEntry]
  | 0, v :: rest => rfl
  | j + 1, v :: rest => by
    show (v :: scaleEntry c j rest).getD (j + 1) 0 = c * (v :: rest).getD (j + 1) 0
    rw [List.getD_cons_succ, List.getD_cons_succ]
    exact scaleEntry_getD_self c j rest

theorem scaleEntry_getD_ne (c : ℚ) : ∀ (j k : ℕ), k ≠ j → ∀ (s : List ℚ),
    (scaleEntry c j s).getD k 0 = s.getD k 0
  | 0, _, _, [] => rfl
  | _ + 1, _, _, [] => rfl
  | 0, 0, h, _ :: _ => absurd rfl h
  | 0, k + 1, _, v :: rest => by
    show (c * v :: rest).getD (k + 1) 0 = (v :: rest).getD (k + 1) 0
    rw [List.getD_cons_succ, List.getD_cons_succ]
  | j + 1, 0, _, v :: rest => rfl
  | j + 1, k + 1, h, v :: rest => by
    show (v :: scaleEntry c j rest).getD (k + 1) 0 = (v :: rest).getD (k + 1) 0
    rw [List.getD_cons_succ, List.getD_cons_succ]
    exact scaleEntry_getD_ne c j k (fun hk => h (by rw [hk])) rest

theorem spec_scaleEntry (c : ℚ) : ∀ (v : List ℚ) (j : ℕ) (s : List ℚ),
    fractionalValueSpec v (scaleEntry c j s)
      = fractionalValueSpec v s + (c - 1) * (v.getD j 0 * s.getD j 0)
  | [], j, s => by simp [fractionalValueSpec]
  | a :: v, j, [] => by simp [fractionalValueSpec, scaleEntry]
  | a :: v, 0, b :: s => by
    simp only [fractionalValueSpec, scaleEntry, List.zipWith_cons_cons, List.sum_cons,
      List.getD_cons_zero]
    ring
  | a :: v, j + 1, b :: s => by
    simp only [fractionalValueSpec, scaleEntry, List.zipWith_cons_cons, List.sum_cons,
      List.getD_cons_succ]
    have ih := spec_scaleEntry c v j s
    simp only [fractionalValueSpec] at ih
    rw [ih]
    ring

theorem get_value_scaleShare (c : ℚ) (j : ℕ) (vals : List (String × ℚ)) (m : FracMap) :
    get_value_of_agent_in_alloc vals (scaleShare c j m)
      = get_value_of_agent_in_alloc vals m
        + (c - 1) * ((dictValues vals).getD j 0 * (dictValues m).getD j 0) := by
  rw [get_value_eq_spec, get_value_eq_spec, dictValues_scaleShare, spec_scaleEntry]

/-! ## Claims -/

/-- C2 (counterexample): the claim says the validator reports success
trivially on an empty list of fraction maps and that constructing
`FractionalAllocation` with zero agents and zero maps does not fault.  In the
code `sum_value_list = [0] * len(map_item_to_fraction[0])` raises IndexError
on the empty list, and with zero agents and zero maps the agent-count guard
passes (0 = 0) so the constructor runs the validator and the IndexError
escapes: construction faults. -/
theorem C2_counterexample :
    check_input ([] : List FracMap) = none ∧
    FractionalAllocation.init ([] : List AdditiveAgent) ([] : List FracMap) = none :=
  ⟨rfl, rfl⟩

/-- C2 (amended): over an empty item set (a non-empty list of empty fraction
maps) the validator does succeed trivially and construction with a matching
number of agents succeeds; but on an empty list of fraction maps the
validator raises IndexError, so constructing with zero agents and zero maps
faults (see the counterexample). -/
theorem C2_theorem (agents : List AdditiveAgent) (maps : List FracMap)
    (hne : maps ≠ []) (hempty : ∀ m ∈ maps, m = [])
    (hlen : agents.length = maps.length) :
    check_input maps = some none ∧
    FractionalAllocation.init agents maps = some ⟨some agents, some maps⟩ := by
  obtain ⟨m0, rest, rfl⟩ := List.exists_cons_of_ne_nil hne
  have hm0 : m0 = [] := hempty m0 (by simp)
  subst hm0
  have hci : check_input (([] : FracMap) :: rest) = some none := by
    rw [check_input_of_uniform [] rest (fun m hm => by rw [hempty m hm]),
      check_rows_sums [] rest (fun m hm kv hkv => by rw [hempty m hm] at hkv; cases hkv)]
    rfl
  refine ⟨hci, ?_⟩
  unfold FractionalAllocation.init
  rw [if_neg (not_not_intro hlen), hci]

/-- C2 (witness): one agent, one empty fraction map. -/
theorem C2_witness :
    check_input [([] : FracMap)] = some none ∧
    FractionalAllocation.init [⟨[], "a"⟩] [([] : FracMap)]
      = some ⟨some [⟨[], "a"⟩], some [([] : FracMap)]⟩ :=
  C2_theorem [⟨[], "a"⟩] [[]] (List.cons_ne_nil _ _) (by simp) rfl

/-- C3: if the agent count differs from the number of fraction maps, or the
fraction maps fail the validator, construction does not raise: both fields
are set to the `None` sentinel and the string rendering of the sentinel
object is the empty string. -/
theorem C3_theorem (agents : List AdditiveAgent) (maps : List FracMap)
    (h : agents.length ≠ maps.length ∨ ∃ d, check_input maps = some (some d)) :
    FractionalAllocation.init agents maps = some ⟨none, none⟩ ∧
    FractionalAllocation.repr ⟨none, none⟩ = some "" := by
  refine ⟨?_, rfl⟩
  by_cases hl : agents.length = maps.length
  · obtain ⟨d, hd⟩ := h.resolve_left (not_not_intro hl)
    unfold FractionalAllocation.init
    rw [if_neg (not_not_intro hl), hd]
  · unfold FractionalAllocation.init
    rw [if_pos hl]

/-- C3 (witness): the doctest case of two agents and a single fraction map. -/
theorem C3_witness :
    FractionalAllocation.init
      [⟨[("x", 1), ("y", 2), ("z", 3)], "agent5"⟩, ⟨[("x", 3), ("y", 2), ("z", 1)], "agent6"⟩]
      [[("x", 2/5), ("y", 0), ("z", 1/2)]] = some ⟨none, none⟩ ∧
    FractionalAllocation.repr ⟨none, none⟩ = some "" :=
  C3_theorem _ _ (Or.inl (by decide))

/-- C6: the per-agent fractional valuation is the positional sum of
`value * share` over the two dicts, truncated to the shorter entry list, with
no error on mismatched lengths (the function is total). -/
theorem C6_theorem (value_of_the_whole_items : List (String × ℚ))
    (amount_of_the_items : FracMap) :
    get_value_of_agent_in_alloc value_of_the_whole_items amount_of_the_items
      = fractionalValueSpec (dictValues value_of_the_whole_items)
          (dictValues amount_of_the_items) ∧
    (List.zipWith (fun v s => v * s) (dictValues value_of_the_whole_items)
        (dictValues amount_of_the_items)).length
      = min value_of_the_whole_items.length amount_of_the_items.length :=
  ⟨get_value_eq_spec _ _, by simp [dictValues]⟩

/-- C10: `value_of_fractional_allocation` performs no validity check: on the
sentinel invalid state it faults (iterates the `None` agents field) instead
of returning a number, while the string rendering of the same state is the
empty string — the fail-soft degradation covers rendering only. -/
theorem C10_theorem (A : FractionalAllocation) (h₁ : A.agents = none)
    (h₂ : A.map_item_to_fraction = none) :
    A.value_of_fractional_allocation = none ∧ A.repr = some "" := by
  obtain ⟨ags, maps⟩ := A
  cases h₁
  cases h₂
  exact ⟨rfl, rfl⟩

/-- C10 (witness): the sentinel object itself. -/
theorem C10_witness :
    FractionalAllocation.value_of_fractional_allocation ⟨none, none⟩ = none ∧
    FractionalAllocation.repr ⟨none, none⟩ = some "" :=
  C10_theorem ⟨none, none⟩ rfl rfl

/-- C8: the bundle formatter is invariant under any reordering of the input
set (modelled as permutation of a duplicate-free list), its output lists the
items in strict ascending lexicographic order, comma-separated, wrapped in
braces, and the empty bundle renders as the two-character brace string. -/
theorem C8_theorem (l₁ l₂ : List String) (hperm : l₁.Perm l₂) (hnd : l₁.Nodup) :
    stringify_bundle l₁ = stringify_bundle l₂ ∧
    (∃ s : List String, s.Perm l₁ ∧ s.Sorted (fun a b => a < b) ∧
      stringify_bundle l₁ = "\x7b" ++ String.intercalate commaSep s ++ "\x7d") ∧
    stringify_bundle ([] : List String) = "\x7b\x7d" := by
  refine ⟨?_, ?_, rfl⟩
  · have h12 : List.insertionSort (fun a b => a ≤ b) l₁
        = List.insertionSort (fun a b => a ≤ b) l₂ :=
      List.eq_of_perm_of_sorted
        ((List.perm_insertionSort _ l₁).trans (hperm.trans (List.perm_insertionSort _ l₂).symm))
        (List.sorted_insertionSort _ l₁) (List.sorted_insertionSort _ l₂)
    rw [stringify_bundle, stringify_bundle, h12]
  · refine ⟨List.insertionSort (fun a b => a ≤ b) l₁, List.perm_insertionSort _ l₁, ?_, rfl⟩
    exact (List.sorted_insertionSort _ l₁).lt_of_le
      (((List.perm_insertionSort _ l₁).nodup_iff).mpr hnd)

/-- C8 (witness): the doctest bundles. -/
theorem C8_witness :
    stringify_bundle ["y", "x"] = stringify_bundle ["x", "y"] ∧
    (∃ s : List String, s.Perm ["y", "x"] ∧ s.Sorted (fun a b => a < b) ∧
      stringify_bundle ["y", "x"] = "\x7b" ++ String.intercalate commaSep s ++ "\x7d") ∧
    stringify_bundle ([] : List String) = "\x7b\x7d" :=
  C8_theorem ["y", "x"] ["x", "y"] (List.Perm.swap _ _ _) (by decide)

/-- C9: the validator sizes everything to the entry count of the first map
and zips, so entries of a later map beyond that count are silently ignored —
the outcome only depends on each map truncated to the first map length — and
a list whose ignored extra entry holds the share 2 (greater than 1) still
passes validation. -/
theorem C9_theorem :
    (∀ maps : List FracMap,
      check_input maps = check_input (maps.map (fun m => m.take (maps.headD []).length))) ∧
    check_input [[("x", (1 : ℚ)/2)], [("x", 1/2), ("y", 2)]] = some none ∧
    (1 : ℚ) < 2 := by
  refine ⟨?_,
    by norm_num [check_input, check_rows, checkSums, dictValues, List.range_succ],
    by norm_num⟩
  intro maps
  match maps with
  | [] => rfl
  | m0 :: rest =>
    simp only [List.headD_cons, List.map_cons, List.take_length]
    show some (check_rows ((m0 :: rest).map (fun m => (dictValues m).take m0.length)))
       = some (check_rows ((m0 :: rest.map (fun m => m.take m0.length)).map
           (fun m => (dictValues m).take m0.length)))
    have hXY : (m0 :: rest.map (fun m => m.take m0.length)).map
        (fun m => (dictValues m).take m0.length)
        = (m0 :: rest).map (fun m => (dictValues m).take m0.length) := by
      rw [List.map_cons, List.map_cons, List.map_map]
      refine congrArg _ (List.map_congr_left fun m _ => ?_)
      simp [dictValues, List.map_take, List.take_take]
    rw [hXY]

/-- C4: with a non-empty list of same-length fraction maps containing some
single share strictly above 1 or strictly below 0, the validator reports
OutOfRangeShare, and neither OverAllocatedItem nor UnclaimedItem is reported
even if those conditions also hold. -/
theorem C4_theorem (maps : List FracMap) (hne : maps ≠ [])
    (hlen : ∀ m ∈ maps, m.length = (maps.headD []).length)
    (hbad : ∃ m ∈ maps, ∃ kv ∈ m, 1 < kv.2 ∨ kv.2 < 0) :
    check_input maps = some (some Diagnostic.OutOfRangeShare) ∧
    check_input maps ≠ some (some Diagnostic.OverAllocatedItem) ∧
    check_input maps ≠ some (some Diagnostic.UnclaimedItem) := by
  obtain ⟨m0, rest, rfl⟩ := List.exists_cons_of_ne_nil hne
  simp only [List.headD_cons] at hlen
  have h1 : check_input (m0 :: rest) = some (some Diagnostic.OutOfRangeShare) := by
    rw [check_input_of_uniform m0 rest hlen, check_rows]
    have hany : ((m0 :: rest).map dictValues).any
        (fun row => row.any (fun v => decide (1 < v) || decide (v < 0))) = true := by
      rw [List.any_eq_true]
      obtain ⟨m, hm, kv, hkv, hv⟩ := hbad
      refine ⟨dictValues m, List.mem_map_of_mem dictValues hm, ?_⟩
      rw [List.any_eq_true]
      refine ⟨kv.2, List.mem_map_of_mem Prod.snd hkv, ?_⟩
      simpa using hv
    rw [hany, if_pos rfl]
  exact ⟨h1, by rw [h1]; simp, by rw [h1]; simp⟩

/-- C4 (witness): one agent, one item, share 2. -/
theorem C4_witness :
    check_input [[("x", (2 : ℚ))]] = some (some Diagnostic.OutOfRangeShare) ∧
    check_input [[("x", (2 : ℚ))]] ≠ some (some Diagnostic.OverAllocatedItem) ∧
    check_input [[("x", (2 : ℚ))]] ≠ some (some Diagnostic.UnclaimedItem) :=
  C4_theorem [[("x", 2)]] (by simp) (by simp)
    ⟨[("x", 2)], by simp, ("x", 2), by simp, Or.inl (by norm_num)⟩

/-- C5: with a non-empty list of same-length fraction maps, every share in
[0,1] and every positional column sum in (0,1], the validator returns success
with no diagnostic. -/
theorem C5_theorem (maps : List FracMap) (hne : maps ≠ [])
    (hlen : ∀ m ∈ maps, m.length = (maps.headD []).length)
    (hrange : ∀ m ∈ maps, ∀ kv ∈ m, 0 ≤ kv.2 ∧ kv.2 ≤ 1)
    (hsum : ∀ j < (maps.headD []).length, 0 < itemSum maps j ∧ itemSum maps j ≤ 1) :
    check_input maps = some none := by
  obtain ⟨m0, rest, rfl⟩ := List.exists_cons_of_ne_nil hne
  simp only [List.headD_cons] at hlen hsum
  rw [check_input_of_uniform m0 rest hlen, check_rows_sums m0 rest hrange]
  refine congrArg some (checkSums_eq_none _ fun s hs => ?_)
  simp only [List.mem_map, List.mem_range] at hs
  obtain ⟨j, hj, rfl⟩ := hs
  exact ⟨not_lt.mpr (hsum j hj).2, ne_of_gt (hsum j hj).1⟩

/-- C5 (witness): the doctest input where both agents hold half of each of
the three items. -/
theorem C5_witness :
    check_input [[("x", (1 : ℚ)/2), ("y", 1/2), ("z", 1/2)],
      [("x", 1/2), ("y", 1/2), ("z", 1/2)]] = some none := by
  refine C5_theorem _ (by simp) (by simp) ?_ ?_
  · intro m hm kv hkv
    simp only [List.mem_cons, List.not_mem_nil, or_false] at hm
    rcases hm with rfl | rfl <;>
    · simp only [List.mem_cons, List.not_mem_nil, or_false] at hkv
      rcases hkv with rfl | rfl | rfl <;> norm_num
  · intro j hj
    simp only [List.headD_cons, List.length_cons, List.length_nil] at hj
    interval_cases j <;> norm_num [itemSum, dictValues]

/-- C1 (counterexample): the fraction maps giving shares 0 and 3/5 to two
items for both agents have every individual share in [0,1], the second item
position over-allocated (sum 6/5 exceeds 1) and the first item position
unclaimed (sum exactly 0), yet the validator reports UnclaimedItem, not
OverAllocatedItem: the claim that over-allocation is always reported before
unclaimed-item is false when the unclaimed position has the lower index. -/
theorem C1_counterexample :
    check_input [[("x", (0 : ℚ)), ("y", 3/5)], [("x", 0), ("y", 3/5)]]
      = some (some Diagnostic.UnclaimedItem) ∧
    some (some Diagnostic.UnclaimedItem) ≠ some (some Diagnostic.OverAllocatedItem) ∧
    1 < itemSum [[("x", (0 : ℚ)), ("y", 3/5)], [("x", 0), ("y", 3/5)]] 1 ∧
    itemSum [[("x", (0 : ℚ)), ("y", 3/5)], [("x", 0), ("y", 3/5)]] 0 = 0 ∧
    (0 : ℚ) ≤ 0 ∧ (0 : ℚ) ≤ 1 ∧ (0 : ℚ) ≤ 3/5 ∧ (3 : ℚ)/5 ≤ 1 := by
  refine ⟨?_, by simp, ?_, ?_, by norm_num, by norm_num, by norm_num, by norm_num⟩
  · norm_num [check_input, check_rows, checkSums, dictValues, List.range_succ]
  · norm_num [itemSum, dictValues]
  · norm_num [itemSum, dictValues]

/-- C1 (amended): the over-allocation and unclaimed checks run per item
position in ascending index order, with over-allocation tested before
unclaimed at each position; OverAllocatedItem is reported when the
over-allocated position is the first violating position — in particular when
every earlier position has its sum in (0,1].  (The original claim, that
OverAllocatedItem always wins over UnclaimedItem, fails when an unclaimed
position has a lower index; see the counterexample.) -/
theorem C1_theorem (maps : List FracMap) (hne : maps ≠ [])
    (hlen : ∀ m ∈ maps, m.length = (maps.headD []).length)
    (hrange : ∀ m ∈ maps, ∀ kv ∈ m, 0 ≤ kv.2 ∧ kv.2 ≤ 1)
    (j : ℕ) (hj : j < (maps.headD []).length)
    (hover : 1 < itemSum maps j)
    (hfirst : ∀ k < j, itemSum maps k ≤ 1 ∧ itemSum maps k ≠ 0) :
    check_input maps = some (some Diagnostic.OverAllocatedItem) := by
  obtain ⟨m0, rest, rfl⟩ := List.exists_cons_of_ne_nil hne
  simp only [List.headD_cons] at hlen hj
  rw [check_input_of_uniform m0 rest hlen, check_rows_sums m0 rest hrange]
  refine congrArg some (checkSums_eq_over _ j ?_ ?_ ?_)
  · simpa using hj
  · rw [getD_map_range _ hj]
    exact hover
  · intro k hk
    rw [getD_map_range _ (hk.trans hj)]
    exact ⟨not_lt.mpr (hfirst k hk).1, (hfirst k hk).2⟩

/-- C1 (witness): over-allocation at the first position is reported as
OverAllocatedItem. -/
theorem C1_witness :
    check_input [[("x", (3 : ℚ)/5), ("y", 1/2)], [("x", 3/5), ("y", 1/2)]]
      = some (some Diagnostic.OverAllocatedItem) := by
  refine C1_theorem _ (by simp) (by simp) ?_ 0 (by simp) ?_
    (fun k hk => absurd hk (Nat.not_lt_zero k))
  · intro m hm kv hkv
    simp only [List.mem_cons, List.not_mem_nil, or_false] at hm
    rcases hm with rfl | rfl <;>
    · simp only [List.mem_cons, List.not_mem_nil, or_false] at hkv
      rcases hkv with rfl | rfl <;> norm_num
  · norm_num [itemSum, dictValues]

/-- C7: for a validly constructed FractionalAllocation the social value
equals the sum over all agents of the individual fractional values, and the
valuation is linear in each item column: multiplying every agent share of one
fixed item position by a factor `c` multiplies that item contribution to the
social value by `c` and leaves every other item contribution unchanged. -/
theorem C7_theorem (agents : List AdditiveAgent) (maps : List FracMap)
    (hlen : agents.length = maps.length)
    (hvalid : check_input maps = some none) (c : ℚ) (j : ℕ) :
    FractionalAllocation.init agents maps = some ⟨some agents, some maps⟩ ∧
    FractionalAllocation.value_of_fractional_allocation ⟨some agents, some maps⟩
      = some (((agents.zip maps).map
          (fun p => get_value_of_agent_in_alloc p.1.map_good_to_value p.2)).sum) ∧
    FractionalAllocation.value_of_fractional_allocation
        ⟨some agents, some (maps.map (scaleShare c j))⟩
      = some (((agents.zip maps).map
          (fun p => get_value_of_agent_in_alloc p.1.map_good_to_value p.2)).sum
        + (c - 1) * itemContribution agents maps j) ∧
    itemContribution agents (maps.map (scaleShare c j)) j
      = c * itemContribution agents maps j ∧
    ∀ k, k ≠ j → itemContribution agents (maps.map (scaleShare c j)) k
      = itemContribution agents maps k := by
  have hval : ∀ ms : List FracMap, agents.length ≤ ms.length →
      FractionalAllocation.value_of_fractional_allocation ⟨some agents, some ms⟩
        = some (((agents.zip ms).map
            (fun p => get_value_of_agent_in_alloc p.1.map_good_to_value p.2)).sum) := by
    intro ms hms
    simp only [FractionalAllocation.value_of_fractional_allocation]
    rw [if_pos hms, foldl_add_sum, zero_add]
  have hcomp : ((fun p : AdditiveAgent × FracMap =>
        get_value_of_agent_in_alloc p.1.map_good_to_value p.2)
          ∘ Prod.map id (scaleShare c j))
      = fun p : AdditiveAgent × FracMap =>
          get_value_of_agent_in_alloc p.1.map_good_to_value p.2
            + (c - 1) * ((dictValues p.1.map_good_to_value).getD j 0
                * (dictValues p.2).getD j 0) :=
    funext fun p => get_value_scaleShare c j p.1.map_good_to_value p.2
  refine ⟨?_, hval maps (le_of_eq hlen), ?_, ?_, ?_⟩
  · unfold FractionalAllocation.init
    rw [if_neg (not_not_intro hlen), hvalid]
  · rw [hval (maps.map (scaleShare c j)) (by rw [List.length_map]; exact le_of_eq hlen)]
    rw [List.zip_map_right, List.map_map, hcomp, sum_map_add, sum_map_mul_const]
    rfl
  · simp only [itemContribution]
    rw [List.zip_map_right, List.map_map]
    have h : ((fun p : AdditiveAgent × FracMap =>
          (dictValues p.1.map_good_to_value).getD j 0 * (dictValues p.2).getD j 0)
            ∘ Prod.map id (scaleShare c j))
        = fun p : AdditiveAgent × FracMap =>
            c * ((dictValues p.1.map_good_to_value).getD j 0
              * (dictValues p.2).getD j 0) := by
      funext p
      show (dictValues p.1.map_good_to_value).getD j 0
          * (dictValues (scaleShare c j p.2)).getD j 0 = _
      rw [dictValues_scaleShare, scaleEntry_getD_self]
      ring
    rw [h, sum_map_mul_const]
  · intro k hk
    simp only [itemContribution]
    rw [List.zip_map_right, List.map_map]
    refine congrArg _ (List.map_congr_left fun p _ => ?_)
    show (dictValues p.1.map_good_to_value).getD k 0
        * (dictValues (scaleShare c j p.2)).getD k 0 = _
    rw [dictValues_scaleShare, scaleEntry_getD_ne c j k hk]

/-- C7 (witness): one agent valuing item x at 2 with share one half, column 0
scaled by 3. -/
theorem C7_witness :
    FractionalAllocation.init [⟨[("x", (2 : ℚ))], "a"⟩] [[("x", (1 : ℚ)/2)]]
      = some ⟨some [⟨[("x", (2 : ℚ))], "a"⟩], some [[("x", (1 : ℚ)/2)]]⟩ ∧
    itemContribution [⟨[("x", (2 : ℚ))], "a"⟩] ([[("x", (1 : ℚ)/2)]].map (scaleShare 3 0)) 0
      = 3 * itemContribution [⟨[("x", (2 : ℚ))], "a"⟩] [[("x", (1 : ℚ)/2)]] 0 := by
  have h := C7_theorem [⟨[("x", (2 : ℚ))], "a"⟩] [[("x", (1 : ℚ)/2)]] rfl
    (by norm_num [check_input, check_rows, checkSums, dictValues, List.range_succ]) 3 0
  exact ⟨h.1, h.2.2.2.1⟩
